import Mathlib

/-!
Shallow embedding of the STV tallying engine in `src/Vote.py`.

Modelling conventions:
* Python floats are modelled exactly as rationals (`ℚ`); every arithmetic
  operation performed by the engine on weights/quota is translated verbatim.
* In-place mutation is modelled by explicit state passing; Python exceptions
  (`IndexError` from popping an empty list or indexing an empty list,
  `AttributeError` from calling a method on `None`) are modelled with `Except`.
* `list.sort(key=..., reverse=True)` is Python's stable sort; it is modelled
  by the (stable) `List.insertionSort` with the corresponding "greater or
  equal votes" relation, which produces the identical list.
* The I/O helpers (`get_participants`, `get_votes`, `get_seats`) read files or
  interactive input; their engine-relevant effect — a list of candidate names,
  a seat count and a list of preference lists turned into `Vote` objects —
  is the input data of `mkContext` below.
-/

namespace STV

/-- A single vote (`class Vote`): the remaining list of preferences, front
first, and the current transfer weight.  `Vote.__init__` sets the weight
to `1.0`. -/
structure Vote where
  prefs : List String
  weight : ℚ
deriving DecidableEq

/-- `Vote.first_choice`: the name of the first preference, or `None` when the
preference list is empty. -/
def Vote.first_choice (v : Vote) : Option String :=
  v.prefs.head?

/-- `Vote.is_white`: `True` iff the vote has no preferences left. -/
def Vote.is_white (v : Vote) : Bool :=
  v.prefs.isEmpty

/-- `Vote.clear`: empties the preference list. -/
def Vote.clear (v : Vote) : Vote :=
  { v with prefs := [] }

/-- `Vote.update`: first multiplies the weight by `wcoef`, then pops the first
preference.  On an already-white vote `self.prefs.pop(0)` raises `IndexError`
*after* the weight assignment has happened; the `.error` value carries the
vote as already mutated at the raise point. -/
def Vote.update (v : Vote) (wcoef : ℚ) : Except Vote Vote :=
  let v1 : Vote := { v with weight := v.weight * wcoef }
  match v1.prefs with
  | [] => .error v1
  | _ :: rest => .ok { v1 with prefs := rest }

/-- A candidate (`class Participant`): an immutable name and the list of votes
currently assigned to it. -/
structure Participant where
  name : String
  votes : List Vote
deriving DecidableEq

/-- `Participant.count_votes`: the sum of the weights of the assigned votes. -/
def Participant.count_votes (p : Participant) : ℚ :=
  (p.votes.map Vote.weight).sum

/-- `Participant.add_vote`: appends a vote to the participant's list. -/
def Participant.add_vote (p : Participant) (v : Vote) : Participant :=
  { p with votes := p.votes ++ [v] }

/-- `Participant.clear`: empties the participant's vote list. -/
def Participant.clear (p : Participant) : Participant :=
  { p with votes := [] }

/-- `Participant.destroy_white_votes`: removes the white votes. -/
def Participant.destroy_white_votes (p : Participant) : Participant :=
  { p with votes := p.votes.filter (fun v => !v.is_white) }

/-- The Python exceptions the engine can raise: `IndexError` (pop or index on
an empty list) and `AttributeError` (method call on `None`).  `fuelOut` is the
artifact of running the `while` loop on bounded fuel; it is proved unreachable
for the fuel the engine supplies. -/
inductive PyError where
  | indexError
  | attributeError
  | fuelOut
deriving DecidableEq

/-- The election context (`class Context`): candidate list, seat count, vote
list, winner and eliminated lists, phase counter and the quota. -/
structure Context where
  participants : List Participant
  seats : Nat
  votes : List Vote
  winners : List Participant
  eliminated : List Participant
  phase : Nat
  quota : ℚ
deriving DecidableEq

/-- `Context.__init__` after the I/O helpers have produced the candidate
names and the preference lists: build the votes, drop the white ones
(`destroy_white_votes`), and compute the quota as the code does:
`quota = ceil(1.0 + len(votes)/(seats + 1.0))`. -/
def mkContext (pnames : List String) (seats : Nat) (voteprefs : List (List String)) : Context :=
  let votes := (voteprefs.map (fun l => ({ prefs := l, weight := 1 } : Vote))).filter
    (fun v => !v.is_white)
  { participants := pnames.map (fun n => { name := n, votes := [] })
    seats := seats
    votes := votes
    winners := []
    eliminated := []
    phase := 0
    quota := ((⌈(1 : ℚ) + (votes.length : ℚ) / ((seats : ℚ) + 1)⌉ : ℤ) : ℚ) }

/-- The linear search of `Context.find_participant` over a participant list:
the first participant whose name equals the argument (`None` compares unequal
to every name). -/
def findByName (ps : List Participant) (name : Option String) : Option Participant :=
  ps.find? (fun p => some p.name == name)

/-- `Context.find_participant`: the first participant matching the name, or
`None`. -/
def Context.find_participant (con : Context) (name : Option String) : Option Participant :=
  findByName con.participants name

/-- `participant.add_vote(vote)` through an alias returned by
`find_participant`: the vote is appended to the first participant in the list
whose name matches. -/
def addVoteTo : List Participant → Option String → Vote → List Participant
  | [], _, _ => []
  | p :: rest, name, v =>
    if some p.name == name then p.add_vote v :: rest
    else p :: addVoteTo rest name v

/-- `Context.complete`: the election is over iff the number of winners equals
the number of seats. -/
def Context.complete (con : Context) : Bool :=
  con.winners.length == con.seats

/-- The `while not vote.is_white()` loop inside `Context.migrate`, carried out
on the vote's preference list and weight: if the first preference matches a
participant still in `ps` the vote is assigned there and the loop stops;
otherwise `vote.update()` (coefficient `1.0`) consumes the preference and the
loop repeats; a vote that runs out of preferences is dropped. -/
def migrateLoop (ps : List Participant) : List String → ℚ → List Participant
  | [], _ => ps
  | name :: rest, w =>
    match findByName ps (some name) with
    | some _ => addVoteTo ps (some name) ⟨name :: rest, w⟩
    | none => migrateLoop ps rest (w * 1)

/-- The `for vote in source.votes` loop of `Context.migrate`: each vote is
`update`d with `wcoef` (an `IndexError` escapes if the vote is already white)
and then placed by the inner `while` loop. -/
def migrateVotes : List Vote → List Participant → ℚ → Except PyError (List Participant)
  | [], ps, _ => .ok ps
  | v :: rest, ps, wcoef =>
    match v.update wcoef with
    | .error _ => .error .indexError
    | .ok v1 => migrateVotes rest (migrateLoop ps v1.prefs v1.weight) wcoef

/-- `Context.migrate`: moves every vote of `source` to the next valid
preference among the context's participants, then `source.clear()`.  The
cleared source object is returned alongside, because the caller holds an alias
to it in the winner/eliminated lists. -/
def Context.migrate (con : Context) (source : Participant) (wcoef : ℚ) :
    Except PyError (Context × Participant) :=
  match migrateVotes source.votes con.participants wcoef with
  | .error e => .error e
  | .ok ps => .ok ({ con with participants := ps }, source.clear)

/-- The descending-votes relation used by
`participants.sort(key=lambda p: p.count_votes(), reverse=True)`. -/
def byVotesGe (a b : Participant) : Prop :=
  b.count_votes ≤ a.count_votes

instance : DecidableRel byVotesGe :=
  fun a b => inferInstanceAs (Decidable (b.count_votes ≤ a.count_votes))

/-- `Context.election_phase`: bump the phase counter, sort the participants by
descending vote count (stably, as Python's `sort` does), then either promote
the leader when it meets the quota — migrating its votes with coefficient
`(votes - quota)/votes` — or eliminate the last-ranked participant, migrating
its votes with coefficient `1.0` and applying the automatic-fill rule.
`self.participants[0]` on an empty list raises `IndexError`. -/
def Context.election_phase (con : Context) : Except PyError Context :=
  let con1 : Context := { con with phase := con.phase + 1 }
  match List.insertionSort byVotesGe con1.participants with
  | [] => .error .indexError
  | first :: restPs =>
    if con1.quota ≤ first.count_votes then
      let noOfVotes := first.count_votes
      let wcoef := (noOfVotes - con1.quota) / noOfVotes
      match Context.migrate { con1 with participants := restPs } first wcoef with
      | .error e => .error e
      | .ok (con2, firstCleared) =>
        .ok { con2 with winners := con1.winners ++ [firstCleared] }
    else
      let last := (first :: restPs).getLast (List.cons_ne_nil _ _)
      let remaining := (first :: restPs).dropLast
      let winners1 :=
        if con1.winners.length + remaining.length = con1.seats
        then con1.winners ++ remaining else con1.winners
      let participants1 :=
        if con1.winners.length + remaining.length = con1.seats
        then ([] : List Participant) else remaining
      match Context.migrate { con1 with participants := participants1 } last 1 with
      | .error e => .error e
      | .ok (con2, lastCleared) =>
        .ok { con2 with winners := winners1, eliminated := con1.eliminated ++ [lastCleared] }

/-- The initial-assignment loop at the head of `Context.election_loop`:
`p = self.find_participant(vote.first_choice()); p.add_vote(vote)` for every
vote; a lookup that returns `None` makes `p.add_vote` raise
`AttributeError`. -/
def Context.assign_votes : Context → List Vote → Except PyError Context
  | con, [] => .ok con
  | con, v :: rest =>
    match con.find_participant v.first_choice with
    | none => .error .attributeError
    | some _ =>
      Context.assign_votes
        { con with participants := addVoteTo con.participants v.first_choice v } rest

/-- The `while not self.complete()` loop of `Context.election_loop`, run on
explicit fuel (the engine supplies enough fuel for the loop never to hit
`fuelOut`; see the termination theorems). -/
def electionLoopGo : Nat → Context → Except PyError Context
  | 0, _ => .error .fuelOut
  | fuel + 1, con =>
    if con.complete then .ok con
    else
      match con.election_phase with
      | .error e => .error e
      | .ok con1 => electionLoopGo fuel con1

/-- `Context.election_loop`: assign every vote to its first choice, then run
election phases until all seats are filled. -/
def Context.election_loop (con : Context) : Except PyError Context :=
  match con.assign_votes con.votes with
  | .error e => .error e
  | .ok con1 => electionLoopGo (con1.participants.length + 1) con1

/-- Quota formula exactly as the specification words it: Droop quota =
`floor(validBallotCount / (seats + 1)) + 1` (natural-number division is floor
division).  Stated for comparison against the quota the code computes. -/
def specQuota (validBallots seats : Nat) : Nat :=
  validBallots / (seats + 1) + 1

/-- Names of a participant list, in order. -/
def namesOf (ps : List Participant) : List String :=
  ps.map Participant.name

/-- All candidate names a context currently tracks: the active participants,
the winners and the eliminated, in that order. -/
def Context.allNames (con : Context) : List String :=
  namesOf con.participants ++ namesOf con.winners ++ namesOf con.eliminated

/-- Cumulative effect of `Context.migrate` on the participant list, one source
vote after the other: pop the front preference, scale the weight by the
coefficient, then run the placement loop. -/
def migrateFold (ps : List Participant) (vs : List Vote) (wcoef : ℚ) : List Participant :=
  vs.foldl (fun acc u => migrateLoop acc u.prefs.tail (u.weight * wcoef)) ps

/-- Weights of every vote in a context's participant list lie in `[0,1]`. -/
def Context.weightsOk (con : Context) : Prop :=
  ∀ p ∈ con.participants ++ con.winners ++ con.eliminated,
    ∀ v ∈ p.votes, 0 ≤ v.weight ∧ v.weight ≤ 1

/-- A small mid-election state used to instantiate the round theorems: two
candidates with one bullet vote each, one seat, quota 2. -/
def partCtx : Context :=
  { participants := [⟨"A", [⟨["A"], 1⟩]⟩, ⟨"B", [⟨["B"], 1⟩]⟩]
    seats := 1
    votes := []
    winners := []
    eliminated := []
    phase := 0
    quota := 2 }

/-- A mid-election state in which the automatic-fill rule fires: three
candidates with one bullet vote each, two seats, quota 2. -/
def fillCtx : Context :=
  { participants := [⟨"A", [⟨["A"], 1⟩]⟩, ⟨"B", [⟨["B"], 1⟩]⟩, ⟨"C", [⟨["C"], 1⟩]⟩]
    seats := 2
    votes := []
    winners := []
    eliminated := []
    phase := 0
    quota := 2 }

/-- The leading candidate of `surCtx`: five ballots `[A, B]` of weight 1. -/
def surFirst : Participant :=
  ⟨"A", [⟨["A", "B"], 1⟩, ⟨["A", "B"], 1⟩, ⟨["A", "B"], 1⟩, ⟨["A", "B"], 1⟩, ⟨["A", "B"], 1⟩]⟩

/-- A mid-election state in which the leader exceeds the quota: `surFirst`
holds 5 votes against a quota of 4, so the surplus coefficient is 1/5. -/
def surCtx : Context :=
  { participants := [surFirst, ⟨"B", []⟩]
    seats := 1
    votes := []
    winners := []
    eliminated := []
    phase := 0
    quota := 4 }

/-- A source participant used to instantiate the migration theorem. -/
def migSrc : Participant :=
  ⟨"C", [⟨["A", "B"], 1⟩, ⟨["D"], 1⟩]⟩

end STV

deriving instance DecidableEq for Except

unseal Rat.add Rat.mul Rat.sub Rat.inv

namespace STV

/-! ### Helper lemmas -/

theorem update_ok (v : Vote) (c : ℚ) (n : String) (tl : List String)
    (h : v.prefs = n :: tl) : v.update c = .ok ⟨tl, v.weight * c⟩ := by
  simp [Vote.update, h]

theorem update_err (v : Vote) (c : ℚ) (h : v.prefs = []) :
    v.update c = .error { v with weight := v.weight * c } := by
  simp [Vote.update, h]

theorem addVoteTo_names (name : Option String) (v : Vote) :
    ∀ ps : List Participant, namesOf (addVoteTo ps name v) = namesOf ps
  | [] => rfl
  | p :: rest => by
    by_cases h : (some p.name == name) = true
    · simp [addVoteTo, h, namesOf, Participant.add_vote]
    · simp only [addVoteTo, h]
      simp only [namesOf, List.map_cons, List.map]
      rw [show (addVoteTo rest name v).map Participant.name = namesOf (addVoteTo rest name v)
        from rfl, addVoteTo_names name v rest]
      rfl

theorem addVoteTo_length (name : Option String) (v : Vote) (ps : List Participant) :
    (addVoteTo ps name v).length = ps.length := by
  have := addVoteTo_names name v ps
  have h1 : (namesOf (addVoteTo ps name v)).length = (namesOf ps).length := by rw [this]
  simpa [namesOf] using h1

theorem migrateLoop_eq (ps : List Participant) (l : List String) : ∀ w : ℚ,
    migrateLoop ps l w =
      match l.dropWhile (fun n => (findByName ps (some n)).isNone) with
      | [] => ps
      | n :: tl => addVoteTo ps (some n) ⟨n :: tl, w⟩ := by
  induction l with
  | nil => intro w; simp [migrateLoop]
  | cons n tl ih =>
    intro w
    cases hf : findByName ps (some n) with
    | none =>
      rw [migrateLoop, hf]
      rw [ih (w * 1), mul_one]
      simp [List.dropWhile_cons, hf]
    | some p =>
      rw [migrateLoop, hf]
      simp [List.dropWhile_cons, hf]

theorem migrateLoop_names (ps : List Participant) (l : List String) (w : ℚ) :
    namesOf (migrateLoop ps l w) = namesOf ps := by
  rw [migrateLoop_eq]
  cases l.dropWhile (fun n => (findByName ps (some n)).isNone) with
  | nil => rfl
  | cons n tl => exact addVoteTo_names _ _ _

theorem migrateVotes_ok_names {c : ℚ} :
    ∀ {vs : List Vote} {ps ps' : List Participant},
      migrateVotes vs ps c = .ok ps' → namesOf ps' = namesOf ps := by
  intro vs
  induction vs with
  | nil => intro ps ps' h; cases h; rfl
  | cons v rest ih =>
    intro ps ps' h
    rw [migrateVotes] at h
    cases hu : v.update c with
    | error e => rw [hu] at h; cases h
    | ok v1 =>
      rw [hu] at h
      have := ih h
      rw [this, migrateLoop_names]

theorem migrateVotes_err {c : ℚ} :
    ∀ {vs : List Vote} {ps : List Participant} {e : PyError},
      migrateVotes vs ps c = .error e → e = .indexError := by
  intro vs
  induction vs with
  | nil => intro ps e h; cases h
  | cons v rest ih =>
    intro ps e h
    rw [migrateVotes] at h
    cases hu : v.update c with
    | error e1 => rw [hu] at h; cases h; rfl
    | ok v1 => rw [hu] at h; exact ih h

theorem migrateVotes_nonwhite_ok {c : ℚ} :
    ∀ {vs : List Vote} (ps : List Participant), (∀ v ∈ vs, v.prefs ≠ []) →
      migrateVotes vs ps c = .ok (migrateFold ps vs c) := by
  intro vs
  induction vs with
  | nil => intro ps _; rfl
  | cons v rest ih =>
    intro ps hw
    have hv : v.prefs ≠ [] := hw v (List.mem_cons_self v rest)
    obtain ⟨n, tl, hn⟩ : ∃ n tl, v.prefs = n :: tl := by
      cases h : v.prefs with
      | nil => exact absurd h hv
      | cons a b => exact ⟨a, b, rfl⟩
    rw [migrateVotes, update_ok v c n tl hn]
    show migrateVotes rest (migrateLoop ps tl (v.weight * c)) c = _
    rw [ih _ (fun u hu => hw u (List.mem_cons_of_mem v hu))]
    simp [migrateFold, hn]

theorem migrate_nonwhite_ok (con : Context) (source : Participant) (wcoef : ℚ)
    (hw : ∀ v ∈ source.votes, v.prefs ≠ []) :
    con.migrate source wcoef =
      .ok ({ con with participants := migrateFold con.participants source.votes wcoef },
        source.clear) := by
  rw [Context.migrate, migrateVotes_nonwhite_ok con.participants hw]

theorem migrate_err {con : Context} {source : Participant} {wcoef : ℚ} {e : PyError}
    (h : con.migrate source wcoef = .error e) : e = .indexError := by
  rw [Context.migrate] at h
  cases hm : migrateVotes source.votes con.participants wcoef with
  | error e1 => rw [hm] at h; cases h; exact migrateVotes_err hm
  | ok ps => rw [hm] at h; cases h

theorem migrate_ok_parts {con : Context} {source : Participant} {wcoef : ℚ}
    {con' : Context} {src' : Participant}
    (h : con.migrate source wcoef = .ok (con', src')) :
    namesOf con'.participants = namesOf con.participants ∧
      con' = { con with participants := con'.participants } ∧ src' = source.clear := by
  rw [Context.migrate] at h
  cases hm : migrateVotes source.votes con.participants wcoef with
  | error e1 => rw [hm] at h; cases h
  | ok ps =>
    rw [hm] at h
    cases h
    exact ⟨migrateVotes_ok_names hm, rfl, rfl⟩

/-- A successful `election_phase` has exactly one of two shapes: the sorted
list is nonempty, and either its head met the quota and was promoted, or the
sorted list's last element was eliminated (with the automatic fill applied
when the seat count is exactly reached). -/
theorem phase_ok_shape {con con' : Context} (h : con.election_phase = .ok con') :
    ∃ first restPs, List.insertionSort byVotesGe con.participants = first :: restPs ∧
      ((con.quota ≤ first.count_votes ∧
        ∃ ps', migrateVotes first.votes restPs
            ((first.count_votes - con.quota) / first.count_votes) = .ok ps' ∧
          con' = { con with
                   phase := con.phase + 1
                   participants := ps'
                   winners := con.winners ++ [first.clear] }) ∨
       (¬ con.quota ≤ first.count_votes ∧
        ∃ ps', migrateVotes ((first :: restPs).getLast (List.cons_ne_nil _ _)).votes
            (if con.winners.length + ((first :: restPs).dropLast).length = con.seats
             then [] else (first :: restPs).dropLast) 1 = .ok ps' ∧
          con' = { con with
                   phase := con.phase + 1
                   participants := ps'
                   winners :=
                     (if con.winners.length + ((first :: restPs).dropLast).length = con.seats
                      then con.winners ++ (first :: restPs).dropLast else con.winners)
                   eliminated := con.eliminated ++
                     [((first :: restPs).getLast (List.cons_ne_nil _ _)).clear] })) := by
  unfold Context.election_phase at h
  dsimp only at h
  cases hs : List.insertionSort byVotesGe con.participants with
  | nil => rw [hs] at h; cases h
  | cons first restPs =>
    rw [hs] at h
    dsimp only at h
    refine ⟨first, restPs, rfl, ?_⟩
    by_cases hq : con.quota ≤ first.count_votes
    · rw [if_pos hq, Context.migrate] at h
      dsimp only at h
      cases hm : migrateVotes first.votes restPs
          ((first.count_votes - con.quota) / first.count_votes) with
      | error e => rw [hm] at h; cases h
      | ok ps' =>
        rw [hm] at h
        cases h
        exact .inl ⟨hq, ps', rfl, rfl⟩
    · rw [if_neg hq, Context.migrate] at h
      dsimp only at h
      by_cases hfill : con.winners.length + ((first :: restPs).dropLast).length = con.seats
      · simp only [if_pos hfill] at h
        cases hm : migrateVotes ((first :: restPs).getLast (List.cons_ne_nil _ _)).votes
            ([] : List Participant) 1 with
        | error e => rw [hm] at h; cases h
        | ok ps' =>
          rw [hm] at h
          cases h
          refine .inr ⟨hq, ps', ?_, ?_⟩
          · rw [if_pos hfill, hm]
          · rw [if_pos hfill]
      · simp only [if_neg hfill] at h
        cases hm : migrateVotes ((first :: restPs).getLast (List.cons_ne_nil _ _)).votes
            ((first :: restPs).dropLast) 1 with
        | error e => rw [hm] at h; cases h
        | ok ps' =>
          rw [hm] at h
          cases h
          refine .inr ⟨hq, ps', ?_, ?_⟩
          · rw [if_neg hfill, hm]
          · rw [if_neg hfill]

theorem phase_ok_fields {con con' : Context} (h : con.election_phase = .ok con') :
    con'.quota = con.quota ∧ con'.seats = con.seats ∧ con'.votes = con.votes ∧
      con'.phase = con.phase + 1 := by
  obtain ⟨first, restPs, hs, hcase⟩ := phase_ok_shape h
  rcases hcase with ⟨hq, ps', hm, rfl⟩ | ⟨hq, ps', hm, rfl⟩ <;> exact ⟨rfl, rfl, rfl, rfl⟩

theorem phase_err {con : Context} {e : PyError} (h : con.election_phase = .error e) :
    e = .indexError := by
  unfold Context.election_phase at h
  dsimp only at h
  cases hs : List.insertionSort byVotesGe con.participants with
  | nil => rw [hs] at h; cases h; rfl
  | cons first restPs =>
    rw [hs] at h
    dsimp only at h
    by_cases hq : con.quota ≤ first.count_votes
    · rw [if_pos hq, Context.migrate] at h
      dsimp only at h
      cases hm : migrateVotes first.votes restPs
          ((first.count_votes - con.quota) / first.count_votes) with
      | error e1 => rw [hm] at h; cases h; exact migrateVotes_err hm
      | ok ps' => rw [hm] at h; cases h
    · rw [if_neg hq, Context.migrate] at h
      dsimp only at h
      by_cases hfill : con.winners.length + ((first :: restPs).dropLast).length = con.seats
      · simp only [if_pos hfill] at h
        cases hm : migrateVotes ((first :: restPs).getLast (List.cons_ne_nil _ _)).votes
            ([] : List Participant) 1 with
        | error e1 => rw [hm] at h; cases h; exact migrateVotes_err hm
        | ok ps' => rw [hm] at h; cases h
      · simp only [if_neg hfill] at h
        cases hm : migrateVotes ((first :: restPs).getLast (List.cons_ne_nil _ _)).votes
            ((first :: restPs).dropLast) 1 with
        | error e1 => rw [hm] at h; cases h; exact migrateVotes_err hm
        | ok ps' => rw [hm] at h; cases h

theorem namesOf_length (ps : List Participant) : (namesOf ps).length = ps.length := by
  simp [namesOf]

theorem sorted_cons_len {con : Context} {first : Participant} {restPs : List Participant}
    (hs : List.insertionSort byVotesGe con.participants = first :: restPs) :
    con.participants.length = restPs.length + 1 := by
  have := (List.perm_insertionSort byVotesGe con.participants).length_eq
  rw [hs] at this
  simpa using this.symm

theorem phase_len {con con' : Context} (h : con.election_phase = .ok con') :
    con'.participants.length + 1 ≤ con.participants.length := by
  obtain ⟨first, restPs, hs, hcase⟩ := phase_ok_shape h
  have hlen := sorted_cons_len hs
  rcases hcase with ⟨hq, ps', hm, rfl⟩ | ⟨hq, ps', hm, rfl⟩
  · have hn : namesOf ps' = namesOf restPs := migrateVotes_ok_names hm
    have hl : ps'.length = restPs.length := by
      rw [← namesOf_length, hn, namesOf_length]
    simp only [hl, hlen]
    omega
  · by_cases hfill : con.winners.length + ((first :: restPs).dropLast).length = con.seats
    · rw [if_pos hfill] at hm
      have hn : namesOf ps' = namesOf ([] : List Participant) := migrateVotes_ok_names hm
      have hl : ps'.length = 0 := by rw [← namesOf_length, hn]; rfl
      simp only [hl, hlen]
      omega
    · rw [if_neg hfill] at hm
      have hn : namesOf ps' = namesOf ((first :: restPs).dropLast) :=
        migrateVotes_ok_names hm
      have hl : ps'.length = restPs.length := by
        rw [← namesOf_length, hn, namesOf_length]
        simp
      simp only [hl, hlen]
      omega

theorem phase_allNames {con con' : Context} (h : con.election_phase = .ok con') :
    con'.allNames.Perm con.allNames := by
  obtain ⟨first, restPs, hs, hcase⟩ := phase_ok_shape h
  have hsp : (↑(namesOf con.participants) : Multiset String)
      = ↑(namesOf (first :: restPs)) := by
    apply Multiset.coe_eq_coe.2
    unfold namesOf
    exact ((List.perm_insertionSort byVotesGe con.participants).symm.map Participant.name).trans
      (by rw [hs])
  rw [← Multiset.coe_eq_coe]
  rcases hcase with ⟨hq, ps', hm, rfl⟩ | ⟨hq, ps', hm, rfl⟩
  · have hn : namesOf ps' = namesOf restPs := migrateVotes_ok_names hm
    have hsp2 : (↑(namesOf con.participants) : Multiset String)
        = {first.name} + ↑(namesOf restPs) := by
      rw [hsp, show namesOf (first :: restPs) = first.name :: namesOf restPs from rfl,
        ← Multiset.cons_coe, Multiset.singleton_add]
    have hw : namesOf (con.winners ++ [first.clear])
        = namesOf con.winners ++ [first.name] := by
      simp [namesOf, Participant.clear]
    simp only [Context.allNames]
    rw [hn, hw]
    simp only [← Multiset.coe_add, Multiset.coe_singleton]
    rw [hsp2]
    abel
  · have hlast : (first :: restPs).dropLast
        ++ [(first :: restPs).getLast (List.cons_ne_nil _ _)] = first :: restPs :=
      List.dropLast_concat_getLast _
    have hel : namesOf (con.eliminated
        ++ [((first :: restPs).getLast (List.cons_ne_nil _ _)).clear])
        = namesOf con.eliminated
          ++ [((first :: restPs).getLast (List.cons_ne_nil _ _)).name] := by
      simp [namesOf, Participant.clear]
    have h1 : namesOf ((first :: restPs).dropLast
        ++ [(first :: restPs).getLast (List.cons_ne_nil _ _)]) = namesOf (first :: restPs) := by
      rw [hlast]
    have hbag : (↑(namesOf con.participants) : Multiset String)
        = ↑(namesOf ((first :: restPs).dropLast))
          + {((first :: restPs).getLast (List.cons_ne_nil _ _)).name} := by
      rw [hsp, ← h1]
      rw [show namesOf ((first :: restPs).dropLast
          ++ [(first :: restPs).getLast (List.cons_ne_nil _ _)])
          = namesOf ((first :: restPs).dropLast)
            ++ [((first :: restPs).getLast (List.cons_ne_nil _ _)).name] by simp [namesOf]]
      rw [← Multiset.coe_add, Multiset.coe_singleton]
    by_cases hfill : con.winners.length + ((first :: restPs).dropLast).length = con.seats
    · rw [if_pos hfill] at hm
      have hn : namesOf ps' = namesOf ([] : List Participant) := migrateVotes_ok_names hm
      simp only [Context.allNames]
      rw [if_pos hfill, hn, hel]
      rw [show namesOf (con.winners ++ (first :: restPs).dropLast)
          = namesOf con.winners ++ namesOf ((first :: restPs).dropLast) by simp [namesOf]]
      simp only [← Multiset.coe_add, Multiset.coe_singleton]
      rw [hbag]
      rw [show (↑(namesOf ([] : List Participant)) : Multiset String) = 0 from rfl]
      abel
    · rw [if_neg hfill] at hm
      have hn : namesOf ps' = namesOf ((first :: restPs).dropLast) :=
        migrateVotes_ok_names hm
      simp only [Context.allNames]
      rw [if_neg hfill, hn, hel]
      simp only [← Multiset.coe_add, Multiset.coe_singleton]
      rw [hbag]
      abel

end STV

namespace STV

theorem phase_seats {con con' : Context} (h : con.election_phase = .ok con') :
    con'.seats = con.seats := (phase_ok_fields h).2.1

theorem loopGo_no_fuelOut : ∀ (fuel : Nat) (con : Context),
    con.participants.length < fuel → electionLoopGo fuel con ≠ .error .fuelOut := by
  intro fuel
  induction fuel with
  | zero => intro con h; omega
  | succ f ih =>
    intro con h
    rw [electionLoopGo]
    by_cases hc : con.complete = true
    · simp [hc]
    · rw [if_neg hc]
      cases hp : con.election_phase with
      | error e =>
        have he := phase_err hp
        subst he
        intro hcontra
        cases hcontra
      | ok con1 =>
        apply ih
        have := phase_len hp
        omega

theorem loopGo_ok : ∀ {fuel : Nat} {con con' : Context},
    electionLoopGo fuel con = .ok con' →
      con'.winners.length = con'.seats ∧ con'.seats = con.seats ∧
        con'.quota = con.quota ∧ con'.votes = con.votes ∧
        con'.phase ≤ con.phase + con.participants.length := by
  intro fuel
  induction fuel with
  | zero => intro con con' h; cases h
  | succ f ih =>
    intro con con' h
    rw [electionLoopGo] at h
    by_cases hc : con.complete = true
    · rw [if_pos hc] at h
      cases h
      have : con.winners.length = con.seats := by
        simpa [Context.complete] using hc
      exact ⟨this, rfl, rfl, rfl, Nat.le_add_right _ _⟩
    · rw [if_neg hc] at h
      cases hp : con.election_phase with
      | error e => rw [hp] at h; cases h
      | ok con1 =>
        rw [hp] at h
        obtain ⟨hw, hs, hq, hv, hph⟩ := ih h
        obtain ⟨q1, s1, v1, p1⟩ := phase_ok_fields hp
        have hl := phase_len hp
        exact ⟨hw, hs.trans s1, hq.trans q1, hv.trans v1, by omega⟩

theorem assign_ok_fields : ∀ {vs : List Vote} {con con' : Context},
    Context.assign_votes con vs = .ok con' →
      namesOf con'.participants = namesOf con.participants ∧
        con'.seats = con.seats ∧ con'.quota = con.quota ∧ con'.votes = con.votes ∧
        con'.winners = con.winners ∧ con'.eliminated = con.eliminated ∧
        con'.phase = con.phase := by
  intro vs
  induction vs with
  | nil =>
    intro con con' h
    cases h
    exact ⟨rfl, rfl, rfl, rfl, rfl, rfl, rfl⟩
  | cons v rest ih =>
    intro con con' h
    rw [Context.assign_votes] at h
    cases hf : con.find_participant v.first_choice with
    | none => rw [hf] at h; cases h
    | some p =>
      rw [hf] at h
      obtain ⟨hn, hs, hq, hv, hw, he, hp⟩ := ih h
      refine ⟨hn.trans ?_, hs, hq, hv, hw, he, hp⟩
      exact addVoteTo_names _ _ _

theorem assign_err : ∀ {vs : List Vote} {con : Context} {e : PyError},
    Context.assign_votes con vs = .error e → e = .attributeError := by
  intro vs
  induction vs with
  | nil => intro con e h; cases h
  | cons v rest ih =>
    intro con e h
    rw [Context.assign_votes] at h
    cases hf : con.find_participant v.first_choice with
    | none => rw [hf] at h; cases h; rfl
    | some p => rw [hf] at h; exact ih h

theorem findByName_none_iff {ps : List Participant} {nm : Option String} :
    findByName ps nm = none ↔ ∀ n ∈ namesOf ps, (some n == nm) = false := by
  rw [findByName, List.find?_eq_none]
  constructor
  · intro h n hn
    obtain ⟨p, hp, rfl⟩ := List.mem_map.1 hn
    have := h p hp
    simpa using this
  · intro h p hp
    have := h p.name (List.mem_map_of_mem _ hp)
    simp [this]

theorem assign_fails : ∀ {vs : List Vote} {con : Context} {v : Vote}, v ∈ vs →
    findByName con.participants v.first_choice = none →
    Context.assign_votes con vs = .error .attributeError := by
  intro vs
  induction vs with
  | nil => intro con v hv; cases hv
  | cons v0 rest ih =>
    intro con v hv hnone
    rw [Context.assign_votes]
    cases hf : con.find_participant v0.first_choice with
    | none => rfl
    | some p =>
      rcases List.mem_cons.1 hv with rfl | hvr
      · rw [Context.find_participant] at hf
        rw [hnone] at hf
        cases hf
      · apply ih hvr
        rw [findByName_none_iff] at hnone ⊢
        intro n hn
        apply hnone
        rwa [addVoteTo_names] at hn

theorem election_loop_ok {con con' : Context} (h : con.election_loop = .ok con') :
    con'.winners.length = con'.seats ∧ con'.seats = con.seats ∧
      con'.quota = con.quota ∧ con'.votes = con.votes ∧
      con'.phase ≤ con.phase + con.participants.length := by
  rw [Context.election_loop] at h
  cases ha : Context.assign_votes con con.votes with
  | error e => rw [ha] at h; cases h
  | ok c1 =>
    rw [ha] at h
    obtain ⟨hn, hs, hq, hv, hw, he, hp⟩ := assign_ok_fields ha
    obtain ⟨w2, s2, q2, v2, p2⟩ := loopGo_ok h
    have hlen : c1.participants.length = con.participants.length := by
      rw [← namesOf_length, hn, namesOf_length]
    exact ⟨w2, s2.trans hs, q2.trans hq, v2.trans hv, by omega⟩

end STV

namespace STV

theorem mkContext_quota (pn : List String) (s : Nat) (vp : List (List String)) :
    (mkContext pn s vp).quota
      = ((⌈((vp.countP (fun l => !l.isEmpty) : ℕ) : ℚ) / ((s : ℚ) + 1)⌉ + 1 : ℤ) : ℚ) := by
  unfold mkContext
  dsimp only
  have hL : ((vp.map (fun l => ({ prefs := l, weight := 1 } : Vote))).filter
      (fun v => !v.is_white)).length = vp.countP (fun l => !l.isEmpty) := by
    rw [← List.countP_eq_length_filter, List.countP_map]
    rfl
  rw [hL, add_comm (1 : ℚ), Int.ceil_add_one]

theorem update_ok_weight {v v1 : Vote} {c : ℚ} (h : v.update c = .ok v1) :
    v1.weight = v.weight * c ∧ v1.prefs = v.prefs.tail := by
  unfold Vote.update at h
  dsimp only at h
  cases hp : v.prefs with
  | nil => rw [hp] at h; cases h
  | cons n tl =>
    rw [hp] at h
    cases h
    exact ⟨rfl, rfl⟩

theorem addVoteTo_pred (P : Vote → Prop) {nm : Option String} {v : Vote} (hv : P v) :
    ∀ (ps : List Participant), (∀ p ∈ ps, ∀ u ∈ p.votes, P u) →
      ∀ p ∈ addVoteTo ps nm v, ∀ u ∈ p.votes, P u := by
  intro ps
  induction ps with
  | nil => intro _ p hp; cases hp
  | cons q rest ih =>
    intro hps p hp u hu
    rw [addVoteTo] at hp
    by_cases hq : (some q.name == nm) = true
    · rw [if_pos hq] at hp
      rcases List.mem_cons.1 hp with rfl | hpr
      · rcases (show u ∈ q.votes ∨ u = v by
            simpa [Participant.add_vote] using hu) with h1 | rfl
        · exact hps q (List.mem_cons_self _ _) u h1
        · exact hv
      · exact hps p (List.mem_cons_of_mem _ hpr) u hu
    · rw [if_neg hq] at hp
      rcases List.mem_cons.1 hp with rfl | hpr
      · exact hps p (List.mem_cons_self _ _) u hu
      · exact ih (fun r hr => hps r (List.mem_cons_of_mem _ hr)) p hpr u hu

theorem migrateLoop_wpred (Q : ℚ → Prop) {ps : List Participant} {l : List String} {w : ℚ}
    (hps : ∀ p ∈ ps, ∀ u ∈ p.votes, Q u.weight) (hw : Q w) :
    ∀ p ∈ migrateLoop ps l w, ∀ u ∈ p.votes, Q u.weight := by
  rw [migrateLoop_eq]
  cases hd : l.dropWhile (fun n => (findByName ps (some n)).isNone) with
  | nil => exact hps
  | cons n tl => exact addVoteTo_pred (fun u => Q u.weight) hw ps hps

theorem migrateVotes_wpred (Q : ℚ → Prop) {c : ℚ} :
    ∀ {vs : List Vote} {ps ps' : List Participant},
      (∀ p ∈ ps, ∀ u ∈ p.votes, Q u.weight) → (∀ v ∈ vs, Q (v.weight * c)) →
      migrateVotes vs ps c = .ok ps' → ∀ p ∈ ps', ∀ u ∈ p.votes, Q u.weight := by
  intro vs
  induction vs with
  | nil => intro ps ps' hps _ h; cases h; exact hps
  | cons v rest ih =>
    intro ps ps' hps hvs h
    rw [migrateVotes] at h
    cases hu : v.update c with
    | error e => rw [hu] at h; cases h
    | ok v1 =>
      rw [hu] at h
      have hv1 : Q v1.weight := by
        rw [(update_ok_weight hu).1]
        exact hvs v (List.mem_cons_self _ _)
      exact ih (migrateLoop_wpred Q hps hv1)
        (fun u hu2 => hvs u (List.mem_cons_of_mem _ hu2)) h

theorem wcoef_bounds {q v : ℚ} (hq : 1 ≤ q) (hv : q ≤ v) :
    0 ≤ (v - q) / v ∧ (v - q) / v ≤ 1 := by
  have hv0 : 0 < v := lt_of_lt_of_le (lt_of_lt_of_le zero_lt_one hq) hv
  constructor
  · exact div_nonneg (by linarith) (le_of_lt hv0)
  · rw [div_le_one hv0]
    linarith

theorem surplus_sum (votes : List Vote) (q : ℚ) (hv : ((votes.map Vote.weight).sum) ≠ 0) :
    (votes.map (fun u =>
        u.weight * (((votes.map Vote.weight).sum - q) / (votes.map Vote.weight).sum))).sum
      = (votes.map Vote.weight).sum - q := by
  rw [List.sum_map_mul_right, mul_comm, div_mul_cancel₀ _ hv]

end STV

namespace STV

/-! ### Claim theorems -/

/-- Claim C1, counterexample: the claim states the quota is
`floor(V/(seats+1)) + 1`; the code computes `ceil(1.0 + V/(seats+1.0))`,
which is one larger whenever `seats + 1` does not divide `V`.  With 5 valid
ballots and 2 seats the engine's quota is 3 while the claimed formula
(`specQuota`) gives 2. -/
theorem stv_C1_counterexample :
    (mkContext ["A", "B", "C"] 2 [["A"], ["A"], ["A"], ["B"], ["C"]]).quota
        ≠ (specQuota 5 2 : ℚ) ∧
      (mkContext ["A", "B", "C"] 2 [["A"], ["A"], ["A"], ["B"], ["C"]]).quota = 3 ∧
      specQuota 5 2 = 2 :=
  ⟨by decide, by decide, by decide⟩

/-- Claim C1, amended: at engine construction the quota is computed exactly
once as `ceil(V/(seats+1)) + 1` (not `floor(V/(seats+1)) + 1`), where `V` is
the number of valid ballots counted after all blank (zero-preference) ballots
have been discarded, and the quota is never changed afterwards: neither a
successful election phase nor the whole election loop alters it. -/
theorem stv_C1_quota :
    (∀ (pn : List String) (s : Nat) (vp : List (List String)),
      (mkContext pn s vp).quota
        = ((⌈((vp.countP (fun l => !l.isEmpty) : ℕ) : ℚ) / ((s : ℚ) + 1)⌉ + 1 : ℤ) : ℚ)) ∧
    (∀ con con' : Context, con.election_phase = .ok con' → con'.quota = con.quota) ∧
    (∀ con con' : Context, con.election_loop = .ok con' → con'.quota = con.quota) := by
  refine ⟨mkContext_quota, ?_, ?_⟩
  · intro con con' h
    exact (phase_ok_fields h).1
  · intro con con' h
    exact (election_loop_ok h).2.2.1

/-- Witness for C1: a concrete phase on `partCtx` succeeds and leaves the
quota unchanged. -/
theorem stv_C1_witness :
    (partCtx.election_phase.toOption.map Context.quota) = some partCtx.quota := by
  cases hp : partCtx.election_phase with
  | error e => cases e <;> exact absurd hp (by decide)
  | ok c =>
    simp only [Except.toOption, Option.map]
    rw [stv_C1_quota.2.1 partCtx c hp]

/-- Claim C2: for every ballot migrated out of a source candidate with
coefficient `wcoef`: (1) the ballot's front preference is removed and its
weight is multiplied by `wcoef` exactly once; (2) the placement loop then
consumes preferences one at a time with no further weight change — it skips
exactly the maximal prefix of names that match no active participant, and
either assigns the ballot (with that same weight) to the first still-active
name or, when no preference is left, drops it, leaving the participant list
unchanged; (3) after all ballots are processed the migration succeeds, the
participant list is the per-ballot fold of (1) and (2), and the source's
ballot list is cleared. -/
theorem stv_C2_migration :
    (∀ (u : Vote) (c : ℚ) (n : String) (tl : List String), u.prefs = n :: tl →
      u.update c = .ok ⟨tl, u.weight * c⟩) ∧
    (∀ (ps : List Participant) (l : List String) (w : ℚ),
      migrateLoop ps l w =
        match l.dropWhile (fun n => (findByName ps (some n)).isNone) with
        | [] => ps
        | n :: tl => addVoteTo ps (some n) ⟨n :: tl, w⟩) ∧
    (∀ (con : Context) (source : Participant) (wcoef : ℚ),
      (∀ v ∈ source.votes, v.prefs ≠ []) →
      con.migrate source wcoef =
        .ok ({ con with participants := migrateFold con.participants source.votes wcoef },
          source.clear) ∧ (source.clear).votes = []) := by
  refine ⟨update_ok, migrateLoop_eq, ?_⟩
  intro con source wcoef hw
  exact ⟨migrate_nonwhite_ok con source wcoef hw, rfl⟩

/-- Witness for C2: migrating `migSrc` out of `partCtx` with coefficient 1/2
succeeds and returns the cleared source. -/
theorem stv_C2_witness :
    ((partCtx.migrate migSrc (1/2)).toOption.map (fun r => r.2.votes)) = some [] := by
  rw [(stv_C2_migration.2.2 partCtx migSrc (1/2) (by decide)).1]
  rfl

/-- Claim C3 is a code bug: the engine performs no configuration validation.
The code evaluated at the failing inputs: with `seats = 0 < 1` the election
loop returns successfully with zero winners and zero phases run instead of
rejecting the configuration; with `seats = 2` but a single candidate the loop
executes a real elimination round and then dies with an `IndexError`
mid-tally — partial state, not an up-front rejection. -/
theorem stv_C3_no_validation :
    ((mkContext ["A", "B"] 0 [["A"]]).election_loop.toOption.map
        (fun c => (c.phase, c.winners.length))) = some (0, 0) ∧
      (mkContext ["A"] 2 [["A"]]).election_loop = .error .indexError :=
  ⟨by decide, by decide⟩

/-- Claim C5, counterexample: with `C = 2` candidates and `S = 2` seats the
claimed bound allows `C − S + 1 = 1` round, but the engine needs one winner
round per seat: this election completes after 2 rounds. -/
theorem stv_C5_counterexample :
    ((mkContext ["A", "B"] 2
        [["A"], ["A"], ["A"], ["B"], ["B"], ["B"]]).election_loop.toOption.map
        (fun c => (c.phase, c.winners.length))) = some (2, 2) ∧ ¬(2 ≤ 2 - 2 + 1) :=
  ⟨by decide, by decide⟩

/-- Claim C5, amended: every successful round strictly shrinks the active
set; the loop, run on fuel `|participants| + 1` exactly as `election_loop`
runs it, never exhausts that fuel — the engine terminates, normally or with a
Python error, within `C + 1` loop iterations; and a normally completed run
exits exactly when the winner count equals the seat count, having executed at
most `C` rounds (the claimed bound `C − S + 1` is wrong; `C` is tight). -/
theorem stv_C5_termination :
    (∀ con con' : Context, con.election_phase = .ok con' →
      con'.participants.length + 1 ≤ con.participants.length) ∧
    (∀ (fuel : Nat) (con : Context), con.participants.length < fuel →
      electionLoopGo fuel con ≠ .error .fuelOut) ∧
    (∀ (fuel : Nat) (con con' : Context), electionLoopGo fuel con = .ok con' →
      con'.winners.length = con'.seats ∧ con'.phase ≤ con.phase + con.participants.length) := by
  refine ⟨fun con con' h => phase_len h, loopGo_no_fuelOut, ?_⟩
  intro fuel con con' h
  obtain ⟨hw, _, _, _, hp⟩ := loopGo_ok h
  exact ⟨hw, hp⟩

/-- Witness for C5: on a context with no participants the loop with fuel 1
does not run out of fuel. -/
theorem stv_C5_witness :
    electionLoopGo 1 (mkContext [] 0 []) ≠ .error .fuelOut :=
  stv_C5_termination.2.1 1 (mkContext [] 0 []) (by decide)

/-- Claim C9: calling `update` on an already-exhausted ballot raises an
error, but not atomically — the weight has already been multiplied by the
coefficient when `prefs.pop(0)` raises, so the weight change persists on the
raised-with object while no preference was removed. -/
theorem stv_C9_update_on_exhausted (u : Vote) (c : ℚ) (h : u.prefs = []) :
    u.update c = .error { u with weight := u.weight * c } ∧
      ({ u with weight := u.weight * c } : Vote).prefs = [] ∧
      ({ u with weight := u.weight * c } : Vote).weight = u.weight * c :=
  ⟨update_err u c h, h, rfl⟩

/-- Witness for C9: updating the exhausted vote `⟨[], 1⟩` with coefficient
1/2 errors out with the weight already halved. -/
theorem stv_C9_witness :
    (Vote.mk [] 1).update (1/2) = .error (Vote.mk [] (1 * (1/2))) ∧
      (Vote.mk [] (1 * (1/2))).prefs = [] ∧
      (Vote.mk [] (1 * (1/2))).weight = 1 * (1/2) :=
  stv_C9_update_on_exhausted ⟨[], 1⟩ (1/2) rfl

/-- Claim C10: during initial assignment, a ballot whose first preference
names no known participant makes the engine fail with an error — the
`find_participant` lookup returns `None`, which is then dereferenced
(`AttributeError`) — rather than skipping the preference or discarding the
ballot; the error happens inside the assignment loop, so the election loop
surfaces it and no round is executed. -/
theorem stv_C10_unknown_name (con : Context) (v : Vote) (n : String)
    (hv : v ∈ con.votes) (hfc : v.first_choice = some n)
    (hnone : con.find_participant (some n) = none) :
    Context.assign_votes con con.votes = .error .attributeError ∧
      con.election_loop = .error .attributeError := by
  have h1 : Context.assign_votes con con.votes = .error .attributeError := by
    apply assign_fails hv
    rw [hfc]
    exact hnone
  refine ⟨h1, ?_⟩
  rw [Context.election_loop, h1]

/-- Witness for C10: a single ballot naming the unknown candidate "B" makes
the engine raise `AttributeError` before any round. -/
theorem stv_C10_witness :
    Context.assign_votes (mkContext ["A"] 1 [["B"]]) (mkContext ["A"] 1 [["B"]]).votes
        = .error .attributeError ∧
      (mkContext ["A"] 1 [["B"]]).election_loop = .error .attributeError :=
  stv_C10_unknown_name (mkContext ["A"] 1 [["B"]]) ⟨["B"], 1⟩ "B"
    (by decide) (by decide) (by decide)

end STV

namespace STV

theorem phase_winners_le {con con' : Context} (hc : con.complete = false)
    (hle : con.winners.length ≤ con.seats) (h : con.election_phase = .ok con') :
    con'.winners.length ≤ con'.seats := by
  have hne : con.winners.length ≠ con.seats := by
    simpa [Context.complete] using hc
  obtain ⟨first, restPs, hs, hcase⟩ := phase_ok_shape h
  rcases hcase with ⟨hq, ps', hm, rfl⟩ | ⟨hq, ps', hm, rfl⟩
  · show (con.winners ++ [first.clear]).length ≤ con.seats
    rw [List.length_append]
    simp only [List.length_cons, List.length_nil]
    omega
  · by_cases hfill : con.winners.length + ((first :: restPs).dropLast).length = con.seats
    · show (if con.winners.length + ((first :: restPs).dropLast).length = con.seats
          then con.winners ++ (first :: restPs).dropLast
          else con.winners).length ≤ con.seats
      rw [if_pos hfill, List.length_append]
      omega
    · show (if con.winners.length + ((first :: restPs).dropLast).length = con.seats
          then con.winners ++ (first :: restPs).dropLast
          else con.winners).length ≤ con.seats
      rw [if_neg hfill]
      exact hle

/-- Claim C4: at every round boundary the active, winner and eliminated
collections partition the original candidate set and the winner count never
exceeds the seat count.  Formally: (1) at construction the tracked names are
exactly the given candidate names, with no winners or eliminated; (2) the
initial assignment loop does not change the tracked names, the winner count
or the seat count; (3) a successful phase permutes the tracked names
(union preserved) and keeps `|winners| ≤ seats` as long as the loop's guard
(`not complete`) held; (4) whenever the tracked names are duplicate-free the
three collections are pairwise disjoint. -/
theorem stv_C4_partition :
    (∀ (pn : List String) (s : Nat) (vp : List (List String)),
      (mkContext pn s vp).allNames = pn ∧
        (mkContext pn s vp).winners = [] ∧ (mkContext pn s vp).eliminated = []) ∧
    (∀ (con con' : Context) (vs : List Vote), Context.assign_votes con vs = .ok con' →
      con'.allNames = con.allNames ∧ con'.winners.length = con.winners.length ∧
        con'.seats = con.seats) ∧
    (∀ con con' : Context, con.complete = false → con.winners.length ≤ con.seats →
      con.election_phase = .ok con' →
      con'.allNames.Perm con.allNames ∧ con'.winners.length ≤ con'.seats) ∧
    (∀ con : Context, con.allNames.Nodup →
      (namesOf con.participants).Disjoint (namesOf con.winners) ∧
      (namesOf con.participants).Disjoint (namesOf con.eliminated) ∧
      (namesOf con.winners).Disjoint (namesOf con.eliminated)) := by
  refine ⟨?_, ?_, ?_, ?_⟩
  · intro pn s vp
    refine ⟨?_, rfl, rfl⟩
    simp only [mkContext, Context.allNames, namesOf, List.map_map, List.map_nil,
      List.append_nil]
    show List.map (fun n => n) pn = pn
    exact List.map_id pn
  · intro con con' vs h
    obtain ⟨hn, _, _, _, hw, he, _⟩ := assign_ok_fields h
    refine ⟨?_, by rw [hw], (assign_ok_fields h).2.1⟩
    rw [Context.allNames, Context.allNames, hn, hw, he]
  · intro con con' hc hle h
    exact ⟨phase_allNames h, phase_winners_le hc hle h⟩
  · intro con hnd
    rw [Context.allNames, List.append_assoc, List.nodup_append] at hnd
    obtain ⟨hA, hBC, hABC⟩ := hnd
    rw [List.nodup_append] at hBC
    obtain ⟨hB, hC, hBC2⟩ := hBC
    refine ⟨?_, ?_, hBC2⟩
    · intro x hx hx2
      exact hABC hx (List.mem_append_left _ hx2)
    · intro x hx hx2
      exact hABC hx (List.mem_append_right _ hx2)

/-- Witness for C4: a concrete phase on `partCtx` keeps the name partition (a
permutation of the original names) and the winner bound. -/
theorem stv_C4_witness :
    (partCtx.election_phase.toOption.map
      (fun c => (decide (c.allNames.Perm partCtx.allNames),
                 decide (c.winners.length ≤ c.seats)))) = some (true, true) := by
  cases hp : partCtx.election_phase with
  | error e => cases e <;> exact absurd hp (by decide)
  | ok c =>
    have h := stv_C4_partition.2.2.1 partCtx c (by decide) (by decide) hp
    simp only [Except.toOption, Option.map]
    rw [decide_eq_true h.1, decide_eq_true h.2]

end STV

namespace STV

theorem migrateLoop_nil (l : List String) : ∀ w : ℚ, migrateLoop [] l w = [] := by
  induction l with
  | nil => intro w; rfl
  | cons n tl ih =>
    intro w
    rw [migrateLoop, show findByName [] (some n) = none from rfl]
    exact ih (w * 1)

theorem migrateFold_nil (vs : List Vote) (c : ℚ) : migrateFold [] vs c = [] := by
  induction vs with
  | nil => rfl
  | cons v rest ih =>
    show migrateFold (migrateLoop [] v.prefs.tail (v.weight * c)) rest c = []
    rw [migrateLoop_nil]
    exact ih

/-- Claim C6: in an elimination round, when after removing the eliminated
candidate the number of winners plus the number of remaining active
candidates equals the seat count, every remaining active candidate is
appended to the winners list in its current (sorted) order, the active set
becomes empty, the eliminated candidate (cleared) is recorded, and the
election is complete — no quota condition is checked on the filled-in
winners. -/
theorem stv_C6_autofill (con : Context) (first : Participant) (restPs : List Participant)
    (hs : List.insertionSort byVotesGe con.participants = first :: restPs)
    (hlow : first.count_votes < con.quota)
    (hfill : con.winners.length + ((first :: restPs).dropLast).length = con.seats)
    (hnw : ∀ v ∈ ((first :: restPs).getLast (List.cons_ne_nil _ _)).votes, v.prefs ≠ []) :
    ∃ con', con.election_phase = .ok con' ∧
      con'.winners = con.winners ++ (first :: restPs).dropLast ∧
      con'.participants = [] ∧
      con'.eliminated = con.eliminated
        ++ [((first :: restPs).getLast (List.cons_ne_nil _ _)).clear] ∧
      con'.complete = true := by
  have hmig : migrateVotes ((first :: restPs).getLast (List.cons_ne_nil _ _)).votes
      ([] : List Participant) 1
      = .ok (migrateFold [] ((first :: restPs).getLast (List.cons_ne_nil _ _)).votes 1) :=
    migrateVotes_nonwhite_ok [] hnw
  have hphase : con.election_phase = .ok { con with
      phase := con.phase + 1
      participants := migrateFold [] ((first :: restPs).getLast (List.cons_ne_nil _ _)).votes 1
      winners := con.winners ++ (first :: restPs).dropLast
      eliminated := con.eliminated
        ++ [((first :: restPs).getLast (List.cons_ne_nil _ _)).clear] } := by
    unfold Context.election_phase
    dsimp only
    rw [hs]
    dsimp only
    rw [if_neg (not_le.2 hlow)]
    simp only [if_pos hfill]
    rw [Context.migrate]
    dsimp only
    rw [hmig]
  refine ⟨_, hphase, rfl, migrateFold_nil _ _, rfl, ?_⟩
  show ((con.winners ++ (first :: restPs).dropLast).length == con.seats) = true
  rw [List.length_append, hfill]
  exact beq_self_eq_true _

/-- Witness for C6: on `fillCtx` (three one-vote candidates, two seats,
quota 2) the first round eliminates "C" and automatically fills the two seats
with "A" and "B". -/
theorem stv_C6_witness :
    (fillCtx.election_phase.toOption.map
      (fun c => (namesOf c.winners, c.participants.length, c.complete)))
      = some (["A", "B"], 0, true) := by
  obtain ⟨con', heq, h1, h2, h3, h4⟩ :=
    stv_C6_autofill fillCtx ⟨"A", [⟨["A"], 1⟩]⟩ [⟨"B", [⟨["B"], 1⟩]⟩, ⟨"C", [⟨["C"], 1⟩]⟩]
      (by decide) (by decide) (by decide) (by decide)
  rw [heq]
  simp only [Except.toOption, Option.map]
  rw [h1, h2, h4]
  rfl

end STV

namespace STV

/-- Claim C7: when a candidate with `v ≥ quota ≥ 1` votes is promoted, the
code migrates with coefficient `(v − quota)/v`; each outgoing ballot carries
its old weight times that coefficient, and the weights carried away sum to
exactly `v − quota` (exact rational arithmetic; the float computation matches
within floating-point tolerance), so quota's worth of weight stays credited
to the winner. -/
theorem stv_C7_surplus (con : Context) (first : Participant) (restPs : List Participant)
    (hs : List.insertionSort byVotesGe con.participants = first :: restPs)
    (hq : con.quota ≤ first.count_votes) (hq1 : 1 ≤ con.quota)
    (hnw : ∀ v ∈ first.votes, v.prefs ≠ []) :
    (first.votes.map (fun u =>
        u.weight * ((first.count_votes - con.quota) / first.count_votes))).sum
      = first.count_votes - con.quota ∧
    con.election_phase = .ok { con with
      phase := con.phase + 1
      participants := migrateFold restPs first.votes
        ((first.count_votes - con.quota) / first.count_votes)
      winners := con.winners ++ [first.clear] } := by
  have hv0 : first.count_votes ≠ 0 := by
    have h1 : (0 : ℚ) < con.quota := lt_of_lt_of_le zero_lt_one hq1
    exact ne_of_gt (lt_of_lt_of_le h1 hq)
  constructor
  · exact surplus_sum first.votes con.quota hv0
  · have hmig : migrateVotes first.votes restPs
        ((first.count_votes - con.quota) / first.count_votes)
        = .ok (migrateFold restPs first.votes
          ((first.count_votes - con.quota) / first.count_votes)) :=
      migrateVotes_nonwhite_ok restPs hnw
    unfold Context.election_phase
    try dsimp only
    rw [hs]
    try dsimp only
    rw [if_pos hq, Context.migrate]
    try dsimp only
    rw [hmig]

/-- Witness for C7: on `surCtx` the leader "A" holds 5 votes against quota 4;
the surplus coefficient is 1/5 and the weight transferred away sums to 1. -/
theorem stv_C7_witness :
    (surFirst.votes.map (fun u =>
        u.weight * ((surFirst.count_votes - surCtx.quota) / surFirst.count_votes))).sum
      = surFirst.count_votes - surCtx.quota :=
  (stv_C7_surplus surCtx surFirst [⟨"B", []⟩]
    (by decide) (by decide) (by decide) (by decide)).1

theorem mem_sorted {con : Context} {first : Participant} {restPs : List Participant}
    (hs : List.insertionSort byVotesGe con.participants = first :: restPs) :
    ∀ p ∈ first :: restPs, p ∈ con.participants := by
  intro p hp
  exact (List.perm_insertionSort byVotesGe con.participants).mem_iff.1 (by rw [hs]; exact hp)

theorem mkContext_votes_weight (pn : List String) (s : Nat) (vp : List (List String)) :
    ∀ v ∈ (mkContext pn s vp).votes, v.weight = 1 := by
  intro v hv
  simp only [mkContext] at hv
  have hv2 := (List.mem_filter.1 hv).1
  obtain ⟨l, hl, rfl⟩ := List.mem_map.1 hv2
  rfl

theorem phase_weightsOk {con con' : Context} (hq1 : 1 ≤ con.quota) (hW : con.weightsOk)
    (h : con.election_phase = .ok con') : con'.weightsOk := by
  obtain ⟨first, restPs, hs, hcase⟩ := phase_ok_shape h
  have hmem := mem_sorted hs
  have hPart : ∀ p ∈ con.participants, ∀ u ∈ p.votes, 0 ≤ u.weight ∧ u.weight ≤ 1 :=
    fun p hp => hW p (List.mem_append_left _ (List.mem_append_left _ hp))
  have hWin : ∀ p ∈ con.winners, ∀ u ∈ p.votes, 0 ≤ u.weight ∧ u.weight ≤ 1 :=
    fun p hp => hW p (List.mem_append_left _ (List.mem_append_right _ hp))
  have hElim : ∀ p ∈ con.eliminated, ∀ u ∈ p.votes, 0 ≤ u.weight ∧ u.weight ≤ 1 :=
    fun p hp => hW p (List.mem_append_right _ hp)
  rcases hcase with ⟨hq, ps', hm, rfl⟩ | ⟨hq, ps', hm, rfl⟩
  · have hball : ∀ u ∈ first.votes, 0 ≤ u.weight ∧ u.weight ≤ 1 :=
      hPart first (hmem first (List.mem_cons_self _ _))
    obtain ⟨hw0, hw1⟩ := wcoef_bounds hq1 hq
    have hres : ∀ p ∈ ps', ∀ u ∈ p.votes, 0 ≤ u.weight ∧ u.weight ≤ 1 :=
      migrateVotes_wpred (fun w => 0 ≤ w ∧ w ≤ 1)
        (fun p hp => hPart p (hmem p (List.mem_cons_of_mem _ hp)))
        (fun v hv => ⟨mul_nonneg (hball v hv).1 hw0,
          mul_le_one₀ (hball v hv).2 hw0 hw1⟩) hm
    intro p hp u hu
    rcases List.mem_append.1 hp with hp1 | hpe
    · rcases List.mem_append.1 hp1 with hpp | hpw
      · exact hres p hpp u hu
      · rcases List.mem_append.1 hpw with hw' | hfc
        · exact hWin p hw' u hu
        · have hpc : p = first.clear := by simpa using hfc
          subst hpc
          simp [Participant.clear] at hu
    · exact hElim p hpe u hu
  · have hlastMem : (first :: restPs).getLast (List.cons_ne_nil _ _) ∈ con.participants :=
      hmem _ (List.getLast_mem _)
    have hball : ∀ u ∈ ((first :: restPs).getLast (List.cons_ne_nil _ _)).votes,
        0 ≤ u.weight ∧ u.weight ≤ 1 := hPart _ hlastMem
    have hdrop : ∀ p ∈ (first :: restPs).dropLast, ∀ u ∈ p.votes,
        0 ≤ u.weight ∧ u.weight ≤ 1 :=
      fun p hp => hPart p (hmem p (List.dropLast_subset _ hp))
    have hvs1 : ∀ v ∈ ((first :: restPs).getLast (List.cons_ne_nil _ _)).votes,
        0 ≤ v.weight * 1 ∧ v.weight * 1 ≤ 1 := by
      intro v hv
      rw [mul_one]
      exact hball v hv
    by_cases hfill : con.winners.length + ((first :: restPs).dropLast).length = con.seats
    · rw [if_pos hfill] at hm
      have hres : ∀ p ∈ ps', ∀ u ∈ p.votes, 0 ≤ u.weight ∧ u.weight ≤ 1 :=
        migrateVotes_wpred (fun w => 0 ≤ w ∧ w ≤ 1)
          (fun p hp => absurd hp (List.not_mem_nil p)) hvs1 hm
      intro p hp u hu
      rcases List.mem_append.1 hp with hp1 | hpe
      · rcases List.mem_append.1 hp1 with hpp | hpw
        · exact hres p hpp u hu
        · rw [if_pos hfill] at hpw
          rcases List.mem_append.1 hpw with hw' | hdl
          · exact hWin p hw' u hu
          · exact hdrop p hdl u hu
      · rcases List.mem_append.1 hpe with he' | hlc
        · exact hElim p he' u hu
        · have hpc : p = ((first :: restPs).getLast (List.cons_ne_nil _ _)).clear := by
            simpa using hlc
          subst hpc
          simp [Participant.clear] at hu
    · rw [if_neg hfill] at hm
      have hres : ∀ p ∈ ps', ∀ u ∈ p.votes, 0 ≤ u.weight ∧ u.weight ≤ 1 :=
        migrateVotes_wpred (fun w => 0 ≤ w ∧ w ≤ 1) hdrop hvs1 hm
      intro p hp u hu
      rcases List.mem_append.1 hp with hp1 | hpe
      · rcases List.mem_append.1 hp1 with hpp | hpw
        · exact hres p hpp u hu
        · rw [if_neg hfill] at hpw
          exact hWin p hpw u hu
      · rcases List.mem_append.1 hpe with he' | hlc
        · exact hElim p he' u hu
        · have hpc : p = ((first :: restPs).getLast (List.cons_ne_nil _ _)).clear := by
            simpa using hlc
          subst hpc
          simp [Participant.clear] at hu

/-- Claim C8: ballot weights start at 1.0 and are non-increasing: (1) every
vote the engine constructs has weight 1; (2) an `update` with a coefficient
in `[0,1]` never increases the weight, whether it succeeds or raises; (3) a
successful phase only ever multiplies weights by the surplus coefficient
`(v − q)/v` (with `v ≥ q ≥ 1`, so it lies in `[0,1]`) or by `1.0`, hence it
preserves the invariant that every weight lies in `[0,1]`. -/
theorem stv_C8_weights :
    (∀ (pn : List String) (s : Nat) (vp : List (List String)),
      ∀ v ∈ (mkContext pn s vp).votes, v.weight = 1) ∧
    (∀ (u : Vote) (c : ℚ), 0 ≤ u.weight → 0 ≤ c → c ≤ 1 →
      (∀ u', u.update c = .ok u' → u'.weight ≤ u.weight) ∧
      (∀ u', u.update c = .error u' → u'.weight ≤ u.weight)) ∧
    (∀ con con' : Context, 1 ≤ con.quota → con.weightsOk →
      con.election_phase = .ok con' → con'.weightsOk) := by
  refine ⟨mkContext_votes_weight, ?_, fun con con' => phase_weightsOk⟩
  intro u c h0 hc0 hc1
  constructor
  · intro u' h
    rw [(update_ok_weight h).1]
    exact mul_le_of_le_one_right h0 hc1
  · intro u' h
    have hpe : u.prefs = [] := by
      unfold Vote.update at h
      dsimp only at h
      cases hp : u.prefs with
      | nil => rfl
      | cons n tl => rw [hp] at h; cases h
    rw [update_err u c hpe] at h
    cases h
    show u.weight * c ≤ u.weight
    exact mul_le_of_le_one_right h0 hc1

/-- Witness for C8: the engine-constructed vote `⟨["A"], 1⟩` has weight 1,
and updating it with coefficient 1/2 yields a smaller weight. -/
theorem stv_C8_witness :
    (Vote.mk ["A"] 1).weight = 1 ∧
      (Vote.mk [] (1 * (1 / 2))).weight ≤ (Vote.mk ["A"] 1).weight :=
  ⟨stv_C8_weights.1 ["A"] 1 [["A"]] ⟨["A"], 1⟩ (by decide),
    (stv_C8_weights.2.1 ⟨["A"], 1⟩ (1 / 2) (by norm_num) (by norm_num) (by norm_num)).1
      ⟨[], 1 * (1 / 2)⟩ (by decide)⟩

end STV
